import Mathlib

/-!
Verification of the batch image-decoding engine of `haixuanTao/images`.

The engine itself is the native extension module (`images_rs`, historically
`parallel_read_avif`); the repository ships its Python tests and benchmark
harnesses.  The engine is therefore modelled here from the specification:
its data model (§3), the per-image decode routine (§4.3), the worker pool
(§4.2, completion order abstracted as an explicit schedule), the result
aggregator (§4.4) and the two output encodings (§4.5).
-/

namespace ImagesRs

/-- Modelled from the spec (§6): the container formats the engine recognises
by signature. -/
inductive ImageFormat
| jpeg
| png
| avif
| webp
| gif
deriving DecidableEq, Repr

/-- Modelled from the spec (§3, `DecodedImage`): a decoded image owns a
contiguous pixel buffer (row-major, 3 channels, 8-bit per channel, stored
here as a flat list of byte values) plus its width and height. -/
structure RawImage where
  width : Nat
  height : Nat
  pixels : List Nat
deriving DecidableEq, Repr

/-- Modelled from the spec (§4.1, §7): the abstract content of one file on
disk, as seen by the signature-based format dispatcher.  `image fmt img`
is a well-formed encoded image whose signature identifies `fmt`;
`badStream fmt msg` has a recognised signature but a malformed stream
(the decode library reports `msg`); `unknownSignature` matches no known
signature. -/
inductive FileContent
| image (fmt : ImageFormat) (img : RawImage)
| badStream (fmt : ImageFormat) (msg : String)
| unknownSignature
deriving DecidableEq

/-- Modelled from the spec (§4.1): the file system the dispatcher reads
from, a finite association of paths to file contents; a missing path is a
file-not-found condition. -/
abbrev FS := List (String × FileContent)

/-- Modelled from the spec (§7, `IoFailure`): the message echoes the
underlying I/O diagnostic of the missing file. -/
def ioErrorMsg : String := "No such file or directory (os error 2)"

/-- Modelled from the spec (§7, `UnsupportedFormat`): signature not
recognised by any decoder. -/
def unsupportedFormatMsg : String := "unsupported image format"

/-- Modelled from the spec (§7, `DecodeFailure`): declared dimensions are
validated against the actual byte length before allocating. -/
def dimensionErrorMsg : String := "decode failure: invalid image dimensions"

/-- Modelled from the spec (§4.3, §7): decode a byte buffer of known
content.  An unrecognised signature is `UnsupportedFormat`; a corrupt
stream is a `DecodeFailure` carrying the library diagnostic; a recognised
well-formed image is validated (positive dimensions, exactly
`width * height * 3` bytes, 8-bit samples) and returned, never partial. -/
def decodeContent (c : FileContent) : Except String RawImage :=
  match c with
  | .unknownSignature => .error unsupportedFormatMsg
  | .badStream _ msg => .error ("decode failure: " ++ msg)
  | .image _ img =>
      if 0 < img.width ∧ 0 < img.height ∧
          img.pixels.length = img.width * img.height * 3 ∧
          img.pixels.all (fun b => b < 256)
      then .ok img
      else .error dimensionErrorMsg

/-- Modelled from the spec (§4.1, §4.2): one per-image task — read the file
bytes (a missing file is an `IoFailure`), then detect the format and
decode. -/
def decodePath (fs : FS) (p : String) : Except String RawImage :=
  match fs.lookup p with
  | none => .error ioErrorMsg
  | some c => decodeContent c

/-- Unfolding the decode routine on a recognised well-formed image. -/
theorem decodeContent_image (fmt : ImageFormat) (img : RawImage) :
    decodeContent (.image fmt img) =
      (if 0 < img.width ∧ 0 < img.height ∧
          img.pixels.length = img.width * img.height * 3 ∧
          img.pixels.all (fun b => b < 256)
        then .ok img else .error dimensionErrorMsg) := rfl

/-- A successfully decoded content satisfies the decode routine's
validation: positive dimensions, exact byte length, byte-sized samples. -/
theorem decodeContent_ok_valid {c : FileContent} {img : RawImage}
    (h : decodeContent c = .ok img) :
    0 < img.width ∧ 0 < img.height ∧
      img.pixels.length = img.width * img.height * 3 ∧
      img.pixels.all (fun b => b < 256) := by
  cases c with
  | unknownSignature => simp [decodeContent] at h
  | badStream fmt msg => simp [decodeContent] at h
  | image fmt img0 =>
      rw [decodeContent_image] at h
      split at h
      · rename_i hv
        cases h
        exact hv
      · simp at h

/-- A successfully decoded image satisfies the decode routine's
validation: positive dimensions, exact byte length, byte-sized samples. -/
theorem decodePath_ok_valid {fs : FS} {p : String} {img : RawImage}
    (h : decodePath fs p = .ok img) :
    0 < img.width ∧ 0 < img.height ∧
      img.pixels.length = img.width * img.height * 3 ∧
      img.pixels.all (fun b => b < 256) := by
  unfold decodePath at h
  cases hl : fs.lookup p with
  | none => rw [hl] at h; simp at h
  | some c =>
      rw [hl] at h
      exact decodeContent_ok_valid h

/-! ### Output encoding (§4.5): structured and flat pixel buffers -/

/-- The structured three-dimensional pixel buffer, addressed as
`[row][column][channel]`. -/
abbrev Structured := List (List (List Nat))

/-- Split a list into consecutive chunks of size `k + 1`, with explicit
structural fuel so that the function reduces definitionally. -/
def chunksFuel (k : Nat) : Nat → List α → List (List α)
  | 0, _ => []
  | _ + 1, [] => []
  | fuel + 1, a :: rest =>
      (a :: List.take k rest) :: chunksFuel k fuel (List.drop k rest)

/-- Split a list into consecutive chunks of size `k + 1`. -/
def chunksAux (k : Nat) (l : List α) : List (List α) :=
  chunksFuel k l.length l

/-- Split a list into consecutive chunks of size `k` (`k = 0` yields no
chunks). -/
def chunksN (k : Nat) (l : List α) : List (List α) :=
  match k with
  | 0 => []
  | k + 1 => chunksAux k l

/-- Modelled from the spec (§4.5(a)): the structured `[row][column][channel]`
view of a decoded image's flat row-major interleaved pixel buffer. -/
def structuredOf (img : RawImage) : Structured :=
  chunksN img.width (chunksN 3 img.pixels)

theorem chunksFuel_flatten (k : Nat) :
    ∀ (n : Nat) (l : List α), l.length ≤ n → (chunksFuel k n l).flatten = l := by
  intro n
  induction n with
  | zero =>
      intro l h
      cases l with
      | nil => rfl
      | cons a rest => simp at h
  | succ n ih =>
      intro l h
      cases l with
      | nil => rfl
      | cons a rest =>
          simp only [List.length_cons] at h
          show ((a :: List.take k rest) ::
            chunksFuel k n (List.drop k rest)).flatten = a :: rest
          simp only [List.flatten_cons]
          rw [ih (List.drop k rest) (by simp [List.length_drop]; omega)]
          simp [List.take_append_drop]

/-- Flattening the chunks recovers the original list. -/
theorem chunksAux_flatten (k : Nat) (l : List α) :
    (chunksAux k l).flatten = l :=
  chunksFuel_flatten k l.length l (le_refl _)

/-- Flattening the chunks of positive size recovers the original list. -/
theorem chunksN_flatten (k : Nat) (hk : 0 < k) (l : List α) :
    (chunksN k l).flatten = l := by
  cases k with
  | zero => exact absurd hk (by simp)
  | succ k => exact chunksAux_flatten k l

theorem chunksFuel_length (k : Nat) :
    ∀ (n : Nat) (l : List α), l.length ≤ n → (k + 1) ∣ l.length →
      (chunksFuel k n l).length * (k + 1) = l.length := by
  intro n
  induction n with
  | zero =>
      intro l h _
      cases l with
      | nil => simp [chunksFuel]
      | cons a rest => simp at h
  | succ n ih =>
      intro l h hd
      cases l with
      | nil => simp [chunksFuel]
      | cons a rest =>
          simp only [List.length_cons] at h
          have hk1 : k + 1 ≤ rest.length + 1 :=
            Nat.le_of_dvd (by omega) (by simpa using hd)
          show ((a :: List.take k rest) ::
            chunksFuel k n (List.drop k rest)).length * (k + 1) = rest.length + 1
          simp only [List.length_cons, Nat.succ_mul]
          rw [ih (List.drop k rest) (by simp [List.length_drop]; omega)
            (by simp only [List.length_drop]
                have hsub : rest.length - k = (rest.length + 1) - (k + 1) := by omega
                rw [hsub]
                exact Nat.dvd_sub' (by simpa using hd) dvd_rfl)]
          simp only [List.length_drop]
          omega

/-- When the chunk size divides the length, the number of chunks times the
chunk size is the length. -/
theorem chunksAux_length (k : Nat) (l : List α) (hd : (k + 1) ∣ l.length) :
    (chunksAux k l).length * (k + 1) = l.length :=
  chunksFuel_length k l.length l (le_refl _) hd

theorem chunksFuel_mem_length (k : Nat) :
    ∀ (n : Nat) (l : List α), l.length ≤ n → (k + 1) ∣ l.length →
      ∀ c ∈ chunksFuel k n l, c.length = k + 1 := by
  intro n
  induction n with
  | zero =>
      intro l h _
      cases l with
      | nil => intro c hc; exact absurd hc (by simp [chunksFuel])
      | cons a rest => simp at h
  | succ n ih =>
      intro l h hd
      cases l with
      | nil => intro c hc; exact absurd hc (by simp [chunksFuel])
      | cons a rest =>
          simp only [List.length_cons] at h
          have hk1 : k + 1 ≤ rest.length + 1 :=
            Nat.le_of_dvd (by omega) (by simpa using hd)
          intro c hc
          have hc2 : c ∈ (a :: List.take k rest) ::
              chunksFuel k n (List.drop k rest) := hc
          rcases List.mem_cons.mp hc2 with hc3 | hc3
          · subst hc3
            simp only [List.length_cons, List.length_take]
            omega
          · exact ih (List.drop k rest) (by simp [List.length_drop]; omega)
              (by simp only [List.length_drop]
                  have hsub : rest.length - k = (rest.length + 1) - (k + 1) := by omega
                  rw [hsub]
                  exact Nat.dvd_sub' (by simpa using hd) dvd_rfl)
              c hc3

/-- When the chunk size divides the length, every chunk has exactly the
chunk size. -/
theorem chunksAux_mem_length (k : Nat) (l : List α) (hd : (k + 1) ∣ l.length)
    (c : List α) (hc : c ∈ chunksAux k l) : c.length = k + 1 :=
  chunksFuel_mem_length k l.length l (le_refl _) hd c hc

/-! ### Worker pool (§4.2, §5): bounded threads, completion order -/

/-- Modelled from the spec (§4.2): the effective number of worker threads —
a zero thread-count hint falls back to at least one worker. -/
def effThreads (t : Nat) : Nat := max t 1

/-- Modelled from the spec (§4.2): the pool never spawns more workers than
there are tasks; an empty batch spawns none. -/
def spawnedThreads (t n : Nat) : Nat := min (effThreads t) n

/-- Modelled from the spec (§5): the order in which the `t` workers complete
the `n` tasks — worker `k` handles the tasks whose index is `k` modulo `t`,
and the per-worker completion streams are interleaved here in worker order.
Any order is possible in reality; this one varies with the thread count,
which lets determinism across thread counts be stated. -/
def schedule (t n : Nat) : List Nat :=
  (List.range t).flatMap fun k => (List.range n).filter fun i => i % t = k

/-- Every task index below `n` is completed by the schedule. -/
theorem mem_schedule_of_lt {t n j : Nat} (ht : 0 < t) (hj : j < n) :
    j ∈ schedule t n := by
  unfold schedule
  rw [List.mem_flatMap]
  exact ⟨j % t, List.mem_range.mpr (Nat.mod_lt _ ht),
    List.mem_filter.mpr ⟨List.mem_range.mpr hj, by simp⟩⟩

/-- The schedule only contains task indices below `n`. -/
theorem lt_of_mem_schedule {t n j : Nat} (hj : j ∈ schedule t n) : j < n := by
  unfold schedule at hj
  rw [List.mem_flatMap] at hj
  obtain ⟨k, _, hk⟩ := hj
  exact List.mem_range.mp (List.mem_filter.mp hk).1

/-- No task appears twice in the schedule. -/
theorem schedule_nodup (t n : Nat) : (schedule t n).Nodup := by
  unfold schedule
  rw [List.nodup_flatMap]
  constructor
  · intro k _
    exact (List.nodup_range n).filter _
  · rw [List.pairwise_iff_getElem]
    intro a b ha hb hab
    intro j hja hjb
    have h1 := (List.mem_filter.mp hja).2
    have h2 := (List.mem_filter.mp hjb).2
    simp only [decide_eq_true_eq] at h1 h2
    have : (List.range t)[a] ≠ (List.range t)[b] := by
      simp only [List.getElem_range]
      omega
    exact this (h1 ▸ h2 ▸ rfl)

/-- The schedule is a permutation of the task indices. -/
theorem schedule_perm_range {t : Nat} (ht : 0 < t) (n : Nat) :
    (schedule t n).Perm (List.range n) := by
  rw [List.perm_ext_iff_of_nodup (schedule_nodup t n) (List.nodup_range n)]
  intro j
  rw [List.mem_range]
  exact ⟨lt_of_mem_schedule, mem_schedule_of_lt ht⟩

/-! ### Result aggregator, single aligned sequence shape (§4.4) -/

/-- Modelled from the spec (§4.4): the "single aligned sequence" aggregator.
A sequence of length `n` is pre-filled with the absent marker; as task
outcomes arrive (in the completion order `sched`), each outcome is written
at its ordinal index slot. -/
def aggregate (n : Nat) (outcome : Nat → Option α) (sched : List Nat) :
    List (Option α) :=
  sched.foldl (fun acc i => acc.set i (outcome i)) (List.replicate n none)

theorem foldl_set_length (outcome : Nat → Option α) :
    ∀ (sched : List Nat) (acc : List (Option α)),
      (sched.foldl (fun acc i => acc.set i (outcome i)) acc).length =
        acc.length := by
  intro sched
  induction sched with
  | nil => intro acc; rfl
  | cons i rest ih =>
      intro acc
      rw [List.foldl_cons, ih]
      exact List.length_set acc i _

theorem getElem?_set_oob {l : List α} {i j : Nat} (h : l.length ≤ j) (a : α) :
    (l.set i a)[j]? = l[j]? := by
  rw [List.getElem?_eq_none (by simpa using h), List.getElem?_eq_none h]

theorem foldl_set_getElem? (outcome : Nat → Option α) :
    ∀ (sched : List Nat) (acc : List (Option α)) (j : Nat),
      (sched.foldl (fun acc i => acc.set i (outcome i)) acc)[j]? =
        if j ∈ sched ∧ j < acc.length then some (outcome j) else acc[j]? := by
  intro sched
  induction sched with
  | nil =>
      intro acc j
      simp
  | cons i rest ih =>
      intro acc j
      rw [List.foldl_cons, ih]
      by_cases hlt : j < acc.length
      · by_cases hm : j ∈ rest
        · rw [if_pos ⟨hm, by simpa using hlt⟩,
            if_pos ⟨List.mem_cons_of_mem _ hm, hlt⟩]
        · rw [if_neg (fun hc => hm hc.1)]
          by_cases hij : j = i
          · subst hij
            rw [List.getElem?_set_self hlt,
              if_pos ⟨List.mem_cons_self _ _, hlt⟩]
          · rw [List.getElem?_set_ne (fun h => hij h.symm)]
            rw [if_neg (fun hc => by
              rcases List.mem_cons.mp hc.1 with h | h
              · exact hij h
              · exact hm h)]
      · rw [if_neg (fun hc => hlt (by simpa using hc.2))]
        rw [getElem?_set_oob (Nat.le_of_not_lt hlt)]
        rw [if_neg (fun hc => hlt hc.2)]

/-- The aggregated sequence has one slot per input. -/
theorem aggregate_length (n : Nat) (outcome : Nat → Option α)
    (sched : List Nat) : (aggregate n outcome sched).length = n := by
  unfold aggregate
  rw [foldl_set_length]
  exact List.length_replicate n none

/-- Whatever the completion order, as long as every task completes, the
aggregated sequence is the pointwise task outcome. -/
theorem aggregate_eq_map (n : Nat) (outcome : Nat → Option α)
    (sched : List Nat) (hcomp : ∀ j < n, j ∈ sched) :
    aggregate n outcome sched = (List.range n).map outcome := by
  apply List.ext_getElem?
  intro j
  by_cases hj : j < n
  · unfold aggregate
    rw [foldl_set_getElem?]
    rw [if_pos ⟨hcomp j hj, by simpa using hj⟩]
    simp [List.getElem?_range, hj]
  · have h1 : (aggregate n outcome sched)[j]? = none := by
      apply List.getElem?_eq_none
      rw [aggregate_length]
      omega
    have h2 : ((List.range n).map outcome)[j]? = none := by
      apply List.getElem?_eq_none
      simpa using Nat.le_of_not_lt hj
    rw [h1, h2]

/-! ### The simple calling convention: `read` (§6, `decode_batch`) -/

/-- Modelled from the spec (§6, `decode_batch` / `images_rs.read`): decode
every path with `numThreads` workers and return the order-aligned sequence
of optional structured pixel buffers. -/
def read (fs : FS) (paths : List String) (numThreads : Nat) :
    List (Option Structured) :=
  aggregate paths.length
    (fun i => (decodePath fs (paths.getD i "")).toOption.map structuredOf)
    (schedule (effThreads numThreads) paths.length)

/-- `read` is the pointwise decode of the input paths, whatever the thread
count. -/
theorem read_eq_map (fs : FS) (paths : List String) (numThreads : Nat) :
    read fs paths numThreads = (List.range paths.length).map
      (fun i => (decodePath fs (paths.getD i "")).toOption.map structuredOf) := by
  unfold read
  exact aggregate_eq_map _ _ _
    (fun j hj => mem_schedule_of_lt (by simp [effThreads]) hj)

theorem read_length (fs : FS) (paths : List String) (numThreads : Nat) :
    (read fs paths numThreads).length = paths.length :=
  aggregate_length _ _ _

theorem read_getElem? (fs : FS) (paths : List String) (numThreads : Nat)
    {i : Nat} (hi : i < paths.length) :
    (read fs paths numThreads)[i]? =
      some ((decodePath fs paths[i]).toOption.map structuredOf) := by
  rw [read_eq_map, List.getElem?_map, List.getElem?_range hi]
  simp [List.getD_eq_getElem?_getD, List.getElem?_eq_getElem hi]

/-! ### The detailed calling convention (§6, `decode_batch_detailed`) -/

/-- Modelled from the spec (§4.2): the outcome of the decode task for
ordinal index `i` of the input list. -/
def taskOutcome (fs : FS) (paths : List String) (i : Nat) :
    Except String RawImage :=
  decodePath fs (paths.getD i "")

/-- Modelled from the spec (§5): the stream of per-task outcomes, tagged
with their ordinal index, in the completion order `sched`. -/
def outcomesOf (fs : FS) (paths : List String) (sched : List Nat) :
    List (Nat × Except String RawImage) :=
  sched.map fun i => (i, taskOutcome fs paths i)

/-- Modelled from the spec (§4.4): split the outcome stream into the
success list and the error list, both in arrival order, each entry keeping
its ordinal index. -/
def gather : List (Nat × Except String RawImage) →
    List (Nat × RawImage) × List (Nat × String)
  | [] => ([], [])
  | (i, .ok img) :: rest => ((i, img) :: (gather rest).1, (gather rest).2)
  | (i, .error m) :: rest => ((gather rest).1, (i, m) :: (gather rest).2)

/-- Ordering of successes by their ordinal index. -/
def idxLe (a b : Nat × RawImage) : Prop := a.1 ≤ b.1

instance : DecidableRel idxLe := fun a b => Nat.decLe a.1 b.1

instance : IsTotal (Nat × RawImage) idxLe := ⟨fun a b => Nat.le_total a.1 b.1⟩

instance : IsTrans (Nat × RawImage) idxLe :=
  ⟨fun _ _ _ h1 h2 => Nat.le_trans h1 h2⟩

/-- Modelled from the spec (§4.4): after all tasks complete, the success
list is sorted by ordinal index. -/
def sortedSuccesses (fs : FS) (paths : List String) (sched : List Nat) :
    List (Nat × RawImage) :=
  List.insertionSort idxLe (gather (outcomesOf fs paths sched)).1

/-- Modelled from the spec (§6): the two-sequence batch result — decoded
images as `(buffer, width, height)` with the ordinal index stripped, and
errors as `(original_index, message)`. -/
structure BatchResult (β : Type) where
  images : List (β × Nat × Nat)
  errors : List (Nat × String)
deriving DecidableEq

/-- Modelled from the spec (§6, `decode_batch_detailed` /
`read_images_parallel`): decode every path, then return the successes
sorted by ordinal index with the index stripped (structured buffers) and
the errors in arrival order with their ordinal index.  `sched` is the
completion order of the worker pool. -/
def read_images_parallel (fs : FS) (paths : List String)
    (sched : List Nat) : BatchResult Structured :=
  { images := (sortedSuccesses fs paths sched).map
      (fun e => (structuredOf e.2, e.2.width, e.2.height)),
    errors := (gather (outcomesOf fs paths sched)).2 }

/-- Modelled from the spec (§6): the companion flat-byte variant — same
contract, but each success is the flat `width * height * 3` byte buffer. -/
def read_images_as_bytes_parallel (fs : FS) (paths : List String)
    (sched : List Nat) : BatchResult (List Nat) :=
  { images := (sortedSuccesses fs paths sched).map
      (fun e => (e.2.pixels, e.2.width, e.2.height)),
    errors := (gather (outcomesOf fs paths sched)).2 }

/-! ### Gather lemmas -/

/-- The indices of the gathered successes and errors are, together, a
permutation of the indices of the outcome stream. -/
theorem gather_indices_perm (outs : List (Nat × Except String RawImage)) :
    ((gather outs).1.map Prod.fst ++ (gather outs).2.map Prod.fst).Perm
      (outs.map Prod.fst) := by
  induction outs with
  | nil => simp [gather]
  | cons o rest ih =>
      obtain ⟨i, r⟩ := o
      cases r with
      | ok img =>
          rw [gather]
          simpa using ih.cons i
      | error m =>
          rw [gather]
          simp only [List.map_cons]
          refine List.Perm.trans ?_ (ih.cons i)
          exact List.perm_middle

/-- A gathered success comes from an `ok` outcome in the stream. -/
theorem gather_fst_mem {outs : List (Nat × Except String RawImage)}
    {i : Nat} {img : RawImage} (h : (i, img) ∈ (gather outs).1) :
    (i, Except.ok img) ∈ outs := by
  induction outs with
  | nil => simp [gather] at h
  | cons o rest ih =>
      obtain ⟨j, r⟩ := o
      cases r with
      | ok img0 =>
          rw [gather] at h
          rcases List.mem_cons.mp h with h | h
          · cases h
            exact List.mem_cons_self _ _
          · exact List.mem_cons_of_mem _ (ih h)
      | error m =>
          rw [gather] at h
          exact List.mem_cons_of_mem _ (ih h)

/-- A gathered error comes from an `error` outcome in the stream. -/
theorem gather_snd_mem {outs : List (Nat × Except String RawImage)}
    {i : Nat} {m : String} (h : (i, m) ∈ (gather outs).2) :
    (i, (Except.error m : Except String RawImage)) ∈ outs := by
  induction outs with
  | nil => simp [gather] at h
  | cons o rest ih =>
      obtain ⟨j, r⟩ := o
      cases r with
      | ok img0 =>
          rw [gather] at h
          exact List.mem_cons_of_mem _ (ih h)
      | error m0 =>
          rw [gather] at h
          rcases List.mem_cons.mp h with h | h
          · cases h
            exact List.mem_cons_self _ _
          · exact List.mem_cons_of_mem _ (ih h)

/-- Membership in the outcome stream identifies the outcome of that task. -/
theorem mem_outcomesOf {fs : FS} {paths : List String} {sched : List Nat}
    {i : Nat} {r : Except String RawImage}
    (h : (i, r) ∈ outcomesOf fs paths sched) :
    i ∈ sched ∧ r = taskOutcome fs paths i := by
  unfold outcomesOf at h
  rw [List.mem_map] at h
  obtain ⟨j, hj, hje⟩ := h
  cases hje
  exact ⟨hj, rfl⟩

/-- The combined index count of successes and errors equals the number of
scheduled tasks. -/
theorem gather_length (fs : FS) (paths : List String) (sched : List Nat) :
    (gather (outcomesOf fs paths sched)).1.length +
      (gather (outcomesOf fs paths sched)).2.length = sched.length := by
  have h := (gather_indices_perm (outcomesOf fs paths sched)).length_eq
  simpa [outcomesOf] using h

/-- The indices of the outcome stream are the schedule. -/
theorem outcomesOf_map_fst (fs : FS) (paths : List String)
    (sched : List Nat) :
    (outcomesOf fs paths sched).map Prod.fst = sched := by
  unfold outcomesOf
  rw [List.map_map]
  exact List.map_id' sched

/-- The successful outcome of task `i`, if any, tagged with `i`. -/
def succOutcome (fs : FS) (paths : List String) (i : Nat) :
    Option (Nat × RawImage) :=
  match taskOutcome fs paths i with
  | .ok img => some (i, img)
  | .error _ => none

/-- The failing outcome of task `i`, if any, tagged with `i`. -/
def errOutcome (fs : FS) (paths : List String) (i : Nat) :
    Option (Nat × String) :=
  match taskOutcome fs paths i with
  | .ok _ => none
  | .error m => some (i, m)

/-- Gathering the outcome stream filters the schedule through the task
outcomes, on both the success and the error side. -/
theorem gather_outcomesOf (fs : FS) (paths : List String)
    (sched : List Nat) :
    gather (outcomesOf fs paths sched) =
      (sched.filterMap (succOutcome fs paths),
        sched.filterMap (errOutcome fs paths)) := by
  induction sched with
  | nil => rfl
  | cons i rest ih =>
      simp only [outcomesOf, List.map_cons] at ih ⊢
      cases ht : taskOutcome fs paths i with
      | ok img =>
          rw [List.filterMap_cons, List.filterMap_cons]
          simp only [succOutcome, errOutcome, ht, gather, ih]
      | error m =>
          rw [List.filterMap_cons, List.filterMap_cons]
          simp only [succOutcome, errOutcome, ht, gather, ih]

/-- The indices of the gathered successes carry no duplicates when the
schedule completes each task once. -/
theorem gather_fst_nodup (fs : FS) {paths : List String} {sched : List Nat}
    (hs : sched.Perm (List.range paths.length)) :
    ((gather (outcomesOf fs paths sched)).1.map Prod.fst).Nodup := by
  have hsched : sched.Nodup := hs.symm.nodup (List.nodup_range _)
  have hcomb := gather_indices_perm (outcomesOf fs paths sched)
  rw [outcomesOf_map_fst] at hcomb
  exact (hcomb.symm.nodup hsched).of_append_left

/-- The sorted success list is sorted by ordinal index. -/
theorem sortedSuccesses_sorted (fs : FS) (paths : List String)
    (sched : List Nat) :
    List.Sorted idxLe (sortedSuccesses fs paths sched) :=
  List.sorted_insertionSort idxLe _

/-- The sorted success list is a permutation of the gathered successes. -/
theorem sortedSuccesses_perm (fs : FS) (paths : List String)
    (sched : List Nat) :
    (sortedSuccesses fs paths sched).Perm
      (gather (outcomesOf fs paths sched)).1 :=
  List.perm_insertionSort idxLe _

/-- When the schedule completes each task once, the sorted success list is
strictly ascending in the ordinal index. -/
theorem sortedSuccesses_sorted_strict {fs : FS} {paths : List String}
    {sched : List Nat} (hs : sched.Perm (List.range paths.length)) :
    List.Sorted (fun a b : Nat × RawImage => a.1 < b.1)
      (sortedSuccesses fs paths sched) := by
  have hnd : ((sortedSuccesses fs paths sched).map Prod.fst).Nodup :=
    ((sortedSuccesses_perm fs paths sched).map Prod.fst).symm.nodup
      (gather_fst_nodup fs hs)
  have hne : List.Pairwise (fun a b : Nat × RawImage => a.1 ≠ b.1)
      (sortedSuccesses fs paths sched) := List.pairwise_map.mp hnd
  have hle := sortedSuccesses_sorted fs paths sched
  exact ((List.Pairwise.and hle hne).imp
    (fun h => Nat.lt_of_le_of_ne h.1 h.2))

/-- Every entry of the sorted success list records a successful task
outcome at its own ordinal index. -/
theorem mem_sortedSuccesses {fs : FS} {paths : List String}
    {sched : List Nat} {e : Nat × RawImage}
    (h : e ∈ sortedSuccesses fs paths sched) :
    taskOutcome fs paths e.1 = .ok e.2 ∧ e.1 ∈ sched := by
  obtain ⟨i, img⟩ := e
  have h1 : (i, img) ∈ (gather (outcomesOf fs paths sched)).1 :=
    (sortedSuccesses_perm fs paths sched).mem_iff.mp h
  have h2 := gather_fst_mem h1
  have h3 := mem_outcomesOf h2
  exact ⟨h3.2.symm, h3.1⟩

/-! ### Shape of the structured buffer -/

theorem chunksFuel_subset (k : Nat) :
    ∀ (n : Nat) (l : List α), l.length ≤ n → ∀ c ∈ chunksFuel k n l, c ⊆ l := by
  intro n
  induction n with
  | zero =>
      intro l h c hc
      cases l with
      | nil => simp [chunksFuel] at hc
      | cons a rest => simp at h
  | succ n ih =>
      intro l h c hc
      cases l with
      | nil => simp [chunksFuel] at hc
      | cons a rest =>
          simp only [List.length_cons] at h
          have hc2 : c ∈ (a :: List.take k rest) ::
              chunksFuel k n (List.drop k rest) := hc
          rcases List.mem_cons.mp hc2 with hc3 | hc3
          · subst hc3
            intro x hx
            rcases List.mem_cons.mp hx with hx | hx
            · exact hx ▸ List.mem_cons_self _ _
            · exact List.mem_cons_of_mem _ (List.take_subset k rest hx)
          · intro x hx
            exact List.mem_cons_of_mem _ (List.drop_subset k rest
              (ih (List.drop k rest) (by simp [List.length_drop]; omega) c hc3 hx))

/-- Every element of a chunk is an element of the original list. -/
theorem chunksAux_subset {k : Nat} {l : List α} {c : List α}
    (hc : c ∈ chunksAux k l) : c ⊆ l :=
  chunksFuel_subset k l.length l (le_refl _) c hc

/-- The validation facts of a decoded image, packaged. -/
def ValidImage (img : RawImage) : Prop :=
  0 < img.width ∧ 0 < img.height ∧
    img.pixels.length = img.width * img.height * 3

/-- The structured buffer of a valid image has one entry per row. -/
theorem structuredOf_length {img : RawImage} (hv : ValidImage img) :
    (structuredOf img).length = img.height := by
  obtain ⟨hw, hh, hlen⟩ := hv
  unfold structuredOf
  obtain ⟨w, hweq⟩ : ∃ w, img.width = w + 1 :=
    ⟨img.width - 1, by omega⟩
  rw [hweq] at hlen ⊢
  have hdvd3 : 3 ∣ img.pixels.length :=
    ⟨(w + 1) * img.height, by rw [hlen]; ring⟩
  have hinner : (chunksN 3 img.pixels).length * 3 = img.pixels.length :=
    chunksAux_length 2 img.pixels hdvd3
  have hinner_len : (chunksN 3 img.pixels).length = (w + 1) * img.height := by
    apply Nat.eq_of_mul_eq_mul_right (show 0 < 3 by omega)
    rw [hinner, hlen]
  have hdvdw : (w + 1) ∣ (chunksN 3 img.pixels).length :=
    ⟨img.height, by rw [hinner_len]⟩
  have houter := chunksAux_length w (chunksN 3 img.pixels) hdvdw
  show (chunksAux w (chunksN 3 img.pixels)).length = img.height
  apply Nat.eq_of_mul_eq_mul_right (show 0 < w + 1 by omega)
  rw [houter, hinner_len, Nat.mul_comm]

/-- Every row of the structured buffer of a valid image has one entry per
column. -/
theorem structuredOf_row_length {img : RawImage} (hv : ValidImage img) :
    ∀ row ∈ structuredOf img, row.length = img.width := by
  obtain ⟨hw, hh, hlen⟩ := hv
  unfold structuredOf
  obtain ⟨w, hweq⟩ : ∃ w, img.width = w + 1 :=
    ⟨img.width - 1, by omega⟩
  rw [hweq]
  have hdvd3 : 3 ∣ img.pixels.length :=
    ⟨img.width * img.height, by rw [hlen]; ring⟩
  have hinner : (chunksN 3 img.pixels).length * 3 = img.pixels.length :=
    chunksAux_length 2 img.pixels hdvd3
  have hinner_len : (chunksN 3 img.pixels).length = (w + 1) * img.height := by
    apply Nat.eq_of_mul_eq_mul_right (show 0 < 3 by omega)
    rw [hinner, hlen, hweq]
  intro row hrow
  exact chunksAux_mem_length w (chunksN 3 img.pixels)
    (⟨img.height, by rw [hinner_len]⟩) row hrow

/-- Every pixel of the structured buffer of a valid image has exactly three
channels. -/
theorem structuredOf_px_length {img : RawImage} (hv : ValidImage img) :
    ∀ row ∈ structuredOf img, ∀ px ∈ row, px.length = 3 := by
  obtain ⟨hw, hh, hlen⟩ := hv
  have hdvd3 : 3 ∣ img.pixels.length :=
    ⟨img.width * img.height, by rw [hlen]; ring⟩
  intro row hrow px hpx
  have hmem : px ∈ chunksN 3 img.pixels := by
    unfold structuredOf at hrow
    obtain ⟨w, hweq⟩ : ∃ w, img.width = w + 1 :=
      ⟨img.width - 1, by omega⟩
    rw [hweq] at hrow
    exact chunksAux_subset hrow hpx
  exact chunksAux_mem_length 2 img.pixels hdvd3 px hmem

/-- Flattening the structured buffer of a valid image twice recovers the
flat pixel buffer. -/
theorem structuredOf_flatten {img : RawImage} (hv : ValidImage img) :
    (structuredOf img).flatten.flatten = img.pixels := by
  obtain ⟨hw, _, _⟩ := hv
  unfold structuredOf
  rw [chunksN_flatten img.width hw]
  exact chunksN_flatten 3 (by omega) img.pixels

/-! ### Determinism across completion orders -/

instance : IsAntisymm (Nat × RawImage) (fun a b => a.1 < b.1) :=
  ⟨fun _ _ h1 h2 => absurd (Nat.lt_trans h1 h2) (Nat.lt_irrefl _)⟩

/-- The sorted success list does not depend on the completion order. -/
theorem sortedSuccesses_eq {fs : FS} {paths : List String}
    {sched1 sched2 : List Nat}
    (h1 : sched1.Perm (List.range paths.length))
    (h2 : sched2.Perm (List.range paths.length)) :
    sortedSuccesses fs paths sched1 = sortedSuccesses fs paths sched2 := by
  have hp : sched1.Perm sched2 := h1.trans h2.symm
  have hg : (gather (outcomesOf fs paths sched1)).1.Perm
      (gather (outcomesOf fs paths sched2)).1 := by
    rw [gather_outcomesOf, gather_outcomesOf]
    exact hp.filterMap (succOutcome fs paths)
  have hperm : (sortedSuccesses fs paths sched1).Perm
      (sortedSuccesses fs paths sched2) :=
    ((sortedSuccesses_perm fs paths sched1).trans hg).trans
      (sortedSuccesses_perm fs paths sched2).symm
  exact List.eq_of_perm_of_sorted hperm
    (sortedSuccesses_sorted_strict h1) (sortedSuccesses_sorted_strict h2)

/-- The error list is, up to order, independent of the completion order. -/
theorem errors_perm {fs : FS} {paths : List String}
    {sched1 sched2 : List Nat}
    (h1 : sched1.Perm (List.range paths.length))
    (h2 : sched2.Perm (List.range paths.length)) :
    (gather (outcomesOf fs paths sched1)).2.Perm
      (gather (outcomesOf fs paths sched2)).2 := by
  rw [gather_outcomesOf, gather_outcomesOf]
  exact (h1.trans h2.symm).filterMap (errOutcome fs paths)

/-! ### Error-message discrimination (§7) -/

/-- Lower-case an ASCII letter, as Python's `str.lower` does on the error
messages the tests inspect. -/
def lowerChar (c : Char) : Char :=
  if 'A' ≤ c ∧ c ≤ 'Z' then Char.ofNat (c.toNat + 32) else c

/-- `pat` occurs inside `hay` (Python's `pat in hay`). -/
def containsSub (hay pat : String) : Prop := pat.data <:+: hay.data

/-- `pat` occurs inside the lower-cased `hay`
(Python's `pat in hay.lower()`). -/
def containsSubLower (hay pat : String) : Prop :=
  pat.data <:+: hay.data.map lowerChar

instance (hay pat : String) : Decidable (containsSub hay pat) :=
  inferInstanceAs (Decidable (pat.data <:+: hay.data))

instance (hay pat : String) : Decidable (containsSubLower hay pat) :=
  inferInstanceAs (Decidable (pat.data <:+: hay.data.map lowerChar))

/-! ### Concrete data for witnesses -/

/-- A 2×1 example image: two pixels, six bytes. -/
def exImg : RawImage := ⟨2, 1, [10, 20, 30, 40, 50, 60]⟩

/-- An example file system holding one well-formed PNG. -/
def exFS : FS := [("a.png", FileContent.image ImageFormat.png exImg)]

/-- An example batch: one valid path followed by one missing path. -/
def exPaths : List String := ["a.png", "missing.jpg"]

/-- The 3×3 stripes image of the content test: a pure red row, a pure
green row and a pure blue row, flat row-major interleaved RGB. -/
def stripesImg : RawImage :=
  ⟨3, 3, [255, 0, 0, 255, 0, 0, 255, 0, 0,
          0, 255, 0, 0, 255, 0, 0, 255, 0,
          0, 0, 255, 0, 0, 255, 0, 0, 255]⟩

/-- A file system holding the stripes image as a PNG. -/
def stripesFS : FS :=
  [("stripes.png", FileContent.image ImageFormat.png stripesImg)]

/-- A successful task outcome satisfies the decode validation. -/
theorem taskOutcome_ok_valid {fs : FS} {paths : List String} {i : Nat}
    {img : RawImage} (h : taskOutcome fs paths i = .ok img) :
    0 < img.width ∧ 0 < img.height ∧
      img.pixels.length = img.width * img.height * 3 ∧
      img.pixels.all (fun b => b < 256) := by
  unfold taskOutcome at h
  exact decodePath_ok_valid h

/-! ### The claims -/

/-- C1: the simple calling convention returns a sequence whose length
equals the number of input paths, and whose entry at index `i` is the
decoded structured pixel buffer of `paths[i]` when decoding succeeded and
the absent marker `none` when it failed — a failing path never aborts the
call, whatever the thread count. -/
theorem claim1_simple_batch_alignment (fs : FS) (paths : List String)
    (t i : Nat) (hi : i < paths.length) :
    (read fs paths t).length = paths.length ∧
      (read fs paths t)[i]? =
        some ((decodePath fs paths[i]).toOption.map structuredOf) :=
  ⟨read_length fs paths t, read_getElem? fs paths t hi⟩

theorem claim1_witness :
    0 < exPaths.length ∧
      ((read exFS exPaths 4).length = exPaths.length ∧
        (read exFS exPaths 4)[0]? =
          some ((decodePath exFS "a.png").toOption.map structuredOf)) :=
  ⟨by decide, claim1_simple_batch_alignment exFS exPaths 4 0 (by decide)⟩

/-- C2: the batch result partitions the ordinal indices — the success and
error counts add up to the input length, and the indices across the two
collections are a permutation of `{0, …, len(input) − 1}`: each appears in
exactly one collection, never duplicated. -/
theorem claim2_index_partition (fs : FS) (paths : List String)
    (sched : List Nat) (hs : sched.Perm (List.range paths.length)) :
    (read_images_parallel fs paths sched).images.length +
        (read_images_parallel fs paths sched).errors.length = paths.length ∧
      ((gather (outcomesOf fs paths sched)).1.map Prod.fst ++
        (gather (outcomesOf fs paths sched)).2.map Prod.fst).Perm
        (List.range paths.length) := by
  constructor
  · have h1 : (read_images_parallel fs paths sched).images.length =
        (gather (outcomesOf fs paths sched)).1.length := by
      show ((sortedSuccesses fs paths sched).map _).length = _
      rw [List.length_map]
      exact (sortedSuccesses_perm fs paths sched).length_eq
    have h2 := gather_length fs paths sched
    have h3 : sched.length = paths.length := by
      simpa using hs.length_eq
    rw [h1]
    show _ + (gather (outcomesOf fs paths sched)).2.length = _
    omega
  · have h := gather_indices_perm (outcomesOf fs paths sched)
    rw [outcomesOf_map_fst] at h
    exact h.trans hs

theorem claim2_witness :
    (([1, 0] : List Nat).Perm (List.range exPaths.length)) ∧
      ((read_images_parallel exFS exPaths [1, 0]).images.length +
          (read_images_parallel exFS exPaths [1, 0]).errors.length =
          exPaths.length ∧
        ((gather (outcomesOf exFS exPaths [1, 0])).1.map Prod.fst ++
          (gather (outcomesOf exFS exPaths [1, 0])).2.map Prod.fst).Perm
          (List.range exPaths.length)) :=
  ⟨by decide, claim2_index_partition exFS exPaths [1, 0] (by decide)⟩

/-- C3: the detailed calling convention returns its success sequence in
strictly ascending order of the original input index with the index
stripped from each returned entry, and every error entry pairs the
original index with the diagnostic message of that task. -/
theorem claim3_detailed_ordering (fs : FS) (paths : List String)
    (sched : List Nat) (hs : sched.Perm (List.range paths.length)) :
    List.Sorted (fun a b : Nat × RawImage => a.1 < b.1)
        (sortedSuccesses fs paths sched) ∧
      (read_images_parallel fs paths sched).images =
        (sortedSuccesses fs paths sched).map
          (fun e => (structuredOf e.2, e.2.width, e.2.height)) ∧
      ∀ i m, (i, m) ∈ (read_images_parallel fs paths sched).errors →
        taskOutcome fs paths i = .error m := by
  refine ⟨sortedSuccesses_sorted_strict hs, rfl, ?_⟩
  intro i m hm
  have h2 := gather_snd_mem hm
  exact (mem_outcomesOf h2).2.symm

theorem claim3_witness :
    (([1, 0] : List Nat).Perm (List.range exPaths.length)) ∧
      (List.Sorted (fun a b : Nat × RawImage => a.1 < b.1)
          (sortedSuccesses exFS exPaths [1, 0]) ∧
        (read_images_parallel exFS exPaths [1, 0]).images =
          (sortedSuccesses exFS exPaths [1, 0]).map
            (fun e => (structuredOf e.2, e.2.width, e.2.height)) ∧
        ∀ i m, (i, m) ∈ (read_images_parallel exFS exPaths [1, 0]).errors →
          taskOutcome exFS exPaths i = .error m) :=
  ⟨by decide, claim3_detailed_ordering exFS exPaths [1, 0] (by decide)⟩

/-- C4: for every successfully decoded image, the flat-byte variant
returns a one-dimensional buffer of exactly `width * height * 3` bytes
holding the same bytes in the same row-major interleaved order as the
structured variant's entry for the same input, and the conversion between
the two representations is loss-less and reversible in both directions. -/
theorem claim4_flat_structured_agreement (fs : FS) (paths : List String)
    (sched : List Nat) (j : Nat)
    (hj : j < (read_images_as_bytes_parallel fs paths sched).images.length) :
    ∃ buf w h st,
      (read_images_as_bytes_parallel fs paths sched).images[j]? =
          some (buf, w, h) ∧
        (read_images_parallel fs paths sched).images[j]? = some (st, w, h) ∧
        buf.length = w * h * 3 ∧
        st.flatten.flatten = buf ∧
        structuredOf ⟨w, h, buf⟩ = st := by
  have hj2 : j < (sortedSuccesses fs paths sched).length := by
    simpa [read_images_as_bytes_parallel] using hj
  obtain ⟨ht, -⟩ := mem_sortedSuccesses (List.getElem_mem hj2)
  obtain ⟨hw, hh, hlen, -⟩ := taskOutcome_ok_valid ht
  refine ⟨((sortedSuccesses fs paths sched)[j]).2.pixels,
    ((sortedSuccesses fs paths sched)[j]).2.width,
    ((sortedSuccesses fs paths sched)[j]).2.height,
    structuredOf ((sortedSuccesses fs paths sched)[j]).2,
    ?_, ?_, hlen, structuredOf_flatten ⟨hw, hh, hlen⟩, rfl⟩
  · show ((sortedSuccesses fs paths sched).map
        (fun e => (e.2.pixels, e.2.width, e.2.height)))[j]? = _
    rw [List.getElem?_eq_getElem (by simpa using hj2)]
    rw [List.getElem_map]
  · show ((sortedSuccesses fs paths sched).map
        (fun e => (structuredOf e.2, e.2.width, e.2.height)))[j]? = _
    rw [List.getElem?_eq_getElem (by simpa using hj2)]
    rw [List.getElem_map]

theorem claim4_witness :
    0 < (read_images_as_bytes_parallel exFS exPaths [0, 1]).images.length ∧
      ∃ buf w h st,
        (read_images_as_bytes_parallel exFS exPaths [0, 1]).images[0]? =
            some (buf, w, h) ∧
          (read_images_parallel exFS exPaths [0, 1]).images[0]? =
            some (st, w, h) ∧
          buf.length = w * h * 3 ∧
          st.flatten.flatten = buf ∧
          structuredOf ⟨w, h, buf⟩ = st :=
  ⟨by decide,
    claim4_flat_structured_agreement exFS exPaths [0, 1] 0 (by decide)⟩

/-- C5: error messages keep a file-not-found condition distinguishable
from an unsupported-format condition — a missing path yields the I/O
diagnostic, which contains "No such file or directory" and mentions
neither "unsupported" nor "unknown" even after lower-casing, while an
unrecognised signature yields the unsupported-format message, which does
contain "unsupported" and not the I/O diagnostic. -/
theorem claim5_io_vs_unsupported (fs : FS) (p : String)
    (h : fs.lookup p = none) :
    decodePath fs p = .error ioErrorMsg ∧
      decodeContent FileContent.unknownSignature =
        .error unsupportedFormatMsg ∧
      containsSub ioErrorMsg "No such file or directory" ∧
      ¬ containsSubLower ioErrorMsg "unsupported" ∧
      ¬ containsSubLower ioErrorMsg "unknown" ∧
      containsSubLower unsupportedFormatMsg "unsupported" ∧
      ¬ containsSub unsupportedFormatMsg "No such file or directory" := by
  refine ⟨?_, rfl, by decide, by decide, by decide, by decide, by decide⟩
  unfold decodePath
  rw [h]

theorem claim5_witness :
    (exFS.lookup "missing.avif" = none) ∧
      (decodePath exFS "missing.avif" = .error ioErrorMsg ∧
        decodeContent FileContent.unknownSignature =
          .error unsupportedFormatMsg ∧
        containsSub ioErrorMsg "No such file or directory" ∧
        ¬ containsSubLower ioErrorMsg "unsupported" ∧
        ¬ containsSubLower ioErrorMsg "unknown" ∧
        containsSubLower unsupportedFormatMsg "unsupported" ∧
        ¬ containsSub unsupportedFormatMsg "No such file or directory") :=
  ⟨by decide, claim5_io_vs_unsupported exFS "missing.avif" (by decide)⟩

/-- C6: decoding a losslessly encoded image reproduces its pixel values
exactly — the 3×3 PNG with a pure red row, a pure green row and a pure
blue row decodes to the structured byte-valued buffer with 3 rows of 3
pixels of 3 channels whose values are 255 in the matching channel and 0
elsewhere. -/
theorem claim6_lossless_stripes :
    read stripesFS ["stripes.png"] 1 =
        [some [[[255, 0, 0], [255, 0, 0], [255, 0, 0]],
               [[0, 255, 0], [0, 255, 0], [0, 255, 0]],
               [[0, 0, 255], [0, 0, 255], [0, 0, 255]]]] ∧
      decodePath stripesFS "stripes.png" = .ok stripesImg ∧
      stripesImg.width = 3 ∧ stripesImg.height = 3 ∧
      stripesImg.pixels.all (fun b => b < 256) := by
  refine ⟨by decide, rfl, rfl, rfl, by decide⟩

/-- C7: decoding is deterministic — the simple calling convention yields
identical results for one thread and for any thread count `t`; any two
completion orders of the worker pool yield the same detailed success
sequence and the same error set up to order; and byte-identical file
content decodes to byte-identical results. -/
theorem claim7_thread_determinism (fs fs2 : FS) (paths : List String)
    (t : Nat) (sched1 sched2 : List Nat) (p q : String)
    (h1 : sched1.Perm (List.range paths.length))
    (h2 : sched2.Perm (List.range paths.length))
    (hc : fs.lookup p = fs2.lookup q) :
    read fs paths 1 = read fs paths t ∧
      (read_images_parallel fs paths sched1).images =
        (read_images_parallel fs paths sched2).images ∧
      ((read_images_parallel fs paths sched1).errors).Perm
        ((read_images_parallel fs paths sched2).errors) ∧
      decodePath fs p = decodePath fs2 q := by
  refine ⟨?_, ?_, ?_, ?_⟩
  · rw [read_eq_map, read_eq_map]
  · show ((sortedSuccesses fs paths sched1).map _) =
      ((sortedSuccesses fs paths sched2).map _)
    rw [sortedSuccesses_eq h1 h2]
  · exact errors_perm h1 h2
  · unfold decodePath
    rw [hc]

theorem claim7_witness :
    (([0, 1] : List Nat).Perm (List.range exPaths.length) ∧
        ([1, 0] : List Nat).Perm (List.range exPaths.length) ∧
        exFS.lookup "a.png" = exFS.lookup "a.png") ∧
      (read exFS exPaths 1 = read exFS exPaths 7 ∧
        (read_images_parallel exFS exPaths [0, 1]).images =
          (read_images_parallel exFS exPaths [1, 0]).images ∧
        ((read_images_parallel exFS exPaths [0, 1]).errors).Perm
          ((read_images_parallel exFS exPaths [1, 0]).errors) ∧
        decodePath exFS "a.png" = decodePath exFS "a.png") :=
  ⟨⟨by decide, by decide, rfl⟩,
    claim7_thread_determinism exFS exFS exPaths 7 [0, 1] [1, 0]
      "a.png" "a.png" (by decide) (by decide) rfl⟩

/-- C8: an empty input batch returns empty success and error collections
immediately, spawning no worker threads, for every thread-count hint. -/
theorem claim8_empty_batch (fs : FS) (t : Nat) :
    read fs [] t = [] ∧
      read_images_parallel fs [] [] = ⟨[], []⟩ ∧
      read_images_as_bytes_parallel fs [] [] = ⟨[], []⟩ ∧
      spawnedThreads t 0 = 0 := by
  refine ⟨?_, rfl, rfl, Nat.min_zero _⟩
  rw [read_eq_map]
  rfl

/-- C9: every error entry of the detailed result carries an ordinal index
that is a valid position in the input list, and the flat-byte variant
reports exactly the same errors. -/
theorem claim9_error_index_bounds (fs : FS) (paths : List String)
    (sched : List Nat) (hs : sched.Perm (List.range paths.length)) :
    (∀ i m, (i, m) ∈ (read_images_parallel fs paths sched).errors →
        i < paths.length) ∧
      (read_images_as_bytes_parallel fs paths sched).errors =
        (read_images_parallel fs paths sched).errors := by
  refine ⟨?_, rfl⟩
  intro i m hm
  have h2 := gather_snd_mem hm
  have h3 := (mem_outcomesOf h2).1
  exact List.mem_range.mp (hs.mem_iff.mp h3)

theorem claim9_witness :
    (([1, 0] : List Nat).Perm (List.range exPaths.length)) ∧
      ((∀ i m, (i, m) ∈ (read_images_parallel exFS exPaths [1, 0]).errors →
          i < exPaths.length) ∧
        (read_images_as_bytes_parallel exFS exPaths [1, 0]).errors =
          (read_images_parallel exFS exPaths [1, 0]).errors) :=
  ⟨by decide, claim9_error_index_bounds exFS exPaths [1, 0] (by decide)⟩

/-- C10: every successful entry `(buffer, width, height)` of the detailed
structured result is dimensionally consistent — the structured buffer has
`height` rows of `width` pixels of 3 channels each, so
`width * height * 3` equals the total number of bytes in the buffer. -/
theorem claim10_dimension_consistency (fs : FS) (paths : List String)
    (sched : List Nat) (j : Nat)
    (hj : j < (read_images_parallel fs paths sched).images.length) :
    ∃ st w h,
      (read_images_parallel fs paths sched).images[j]? = some (st, w, h) ∧
        st.length = h ∧
        (∀ row ∈ st, row.length = w) ∧
        (∀ row ∈ st, ∀ px ∈ row, px.length = 3) ∧
        st.flatten.flatten.length = w * h * 3 := by
  have hj2 : j < (sortedSuccesses fs paths sched).length := by
    simpa [read_images_parallel] using hj
  obtain ⟨ht, -⟩ := mem_sortedSuccesses (List.getElem_mem hj2)
  obtain ⟨hw, hh, hlen, -⟩ := taskOutcome_ok_valid ht
  have hv : ValidImage ((sortedSuccesses fs paths sched)[j]).2 :=
    ⟨hw, hh, hlen⟩
  refine ⟨structuredOf ((sortedSuccesses fs paths sched)[j]).2,
    ((sortedSuccesses fs paths sched)[j]).2.width,
    ((sortedSuccesses fs paths sched)[j]).2.height,
    ?_, structuredOf_length hv, structuredOf_row_length hv,
    structuredOf_px_length hv, ?_⟩
  · show ((sortedSuccesses fs paths sched).map
        (fun e => (structuredOf e.2, e.2.width, e.2.height)))[j]? = _
    rw [List.getElem?_eq_getElem (by simpa using hj2)]
    rw [List.getElem_map]
  · rw [structuredOf_flatten hv]
    exact hlen

theorem claim10_witness :
    0 < (read_images_parallel exFS exPaths [0, 1]).images.length ∧
      ∃ st w h,
        (read_images_parallel exFS exPaths [0, 1]).images[0]? =
            some (st, w, h) ∧
          st.length = h ∧
          (∀ row ∈ st, row.length = w) ∧
          (∀ row ∈ st, ∀ px ∈ row, px.length = 3) ∧
          st.flatten.flatten.length = w * h * 3 :=
  ⟨by decide,
    claim10_dimension_consistency exFS exPaths [0, 1] 0 (by decide)⟩

end ImagesRs